import Mathlib

/-!
# Verification of the task-scheduling engine specification

This development embeds the scheduling repository's data model and the
operations named by the specification, and proves (or refutes) the spec's
claims about them.

The repository's environment wrappers (`env_tasking.py`), gym spaces
(`spaces.py`), the experiment driver (`main.py`) and the problem generators
are embedded from their sources.  The search engine itself
(`tree_search.py`, with `ScheduleNode`, `ScheduleNodeShift` and
`branch_bound`) and the task loss model (`tasks.py`) are not part of the
sources available here; those definitions are modelled from the
specification text, as flagged in their doc comments.  Real-valued (f64)
quantities are modelled as rationals.
-/

namespace TaskScheduling

/-- Modelled from the spec: the immutable task value type of the data model
(`tasks.py` is not among the sources).  `duration`, `release_time`
(`t_release`), `slope`, `drop_time` (`t_drop`) and `drop_loss` (`l_drop`)
are the timing/loss parameters of one task. -/
structure Task where
  duration : ℚ
  t_release : ℚ
  slope : ℚ
  t_drop : ℚ
  l_drop : ℚ
deriving DecidableEq, Repr, Inhabited

/-- Modelled from the spec: the loss of starting a task at time `t`;
`L(t) = slope * (t - release_time)` if `t ≤ drop_time`, else `drop_loss`. -/
def Task.lossFn (task : Task) (t : ℚ) : ℚ :=
  if t ≤ task.t_drop then task.slope * (t - task.t_release) else task.l_drop

/-- The spec's well-formedness conditions on a task: positive duration,
nonnegative slope, saturation no earlier than release, and
`drop_loss ≥ slope * (drop_time - release_time)` (violation is a
construction error per the data model). -/
def Task.Valid (task : Task) : Prop :=
  0 < task.duration ∧ 0 ≤ task.slope ∧ task.t_release ≤ task.t_drop ∧
    task.slope * (task.t_drop - task.t_release) ≤ task.l_drop

instance (task : Task) : Decidable task.Valid :=
  inferInstanceAs (Decidable (0 < task.duration ∧ 0 ≤ task.slope ∧
    task.t_release ≤ task.t_drop ∧
    task.slope * (task.t_drop - task.t_release) ≤ task.l_drop))

theorem Task.lossFn_nonneg {task : Task} (hv : task.Valid) {t : ℚ}
    (ht : task.t_release ≤ t) : 0 ≤ task.lossFn t := by
  obtain ⟨-, hslope, hdrop, hld⟩ := hv
  unfold Task.lossFn
  split
  · exact mul_nonneg hslope (by linarith)
  · have : 0 ≤ task.slope * (task.t_drop - task.t_release) :=
      mul_nonneg hslope (by linarith)
    linarith

theorem Task.lossFn_mono {task : Task} (hv : task.Valid) {t t' : ℚ}
    (htt : t ≤ t') : task.lossFn t ≤ task.lossFn t' := by
  obtain ⟨-, hslope, hdrop, hld⟩ := hv
  unfold Task.lossFn
  split <;> split
  · have := mul_le_mul_of_nonneg_left (sub_le_sub_right htt task.t_release) hslope
    linarith
  · have h1 : task.slope * (t - task.t_release) ≤
        task.slope * (task.t_drop - task.t_release) := by
      have : t ≤ task.t_drop := by assumption
      exact mul_le_mul_of_nonneg_left (by linarith) hslope
    linarith
  · rename_i hnot hyes
    push_neg at hnot
    linarith
  · exact le_refl _

/-- Index of the minimum entry of a list of availabilities, ties broken by
the lowest index (the deterministic tie-break rule of the evaluator). -/
def argminIdx : List ℚ → ℕ
  | [] => 0
  | [_] => 0
  | x :: y :: ys =>
      if (y :: ys).getD (argminIdx (y :: ys)) 0 < x then argminIdx (y :: ys) + 1 else 0

@[simp] theorem argminIdx_nil : argminIdx [] = 0 := rfl

@[simp] theorem argminIdx_singleton (x : ℚ) : argminIdx [x] = 0 := rfl

theorem argminIdx_cons_cons (x y : ℚ) (ys : List ℚ) :
    argminIdx (x :: y :: ys) =
      if (y :: ys).getD (argminIdx (y :: ys)) 0 < x then argminIdx (y :: ys) + 1 else 0 := rfl

theorem argminIdx_lt_length {l : List ℚ} (h : l ≠ []) : argminIdx l < l.length := by
  induction l with
  | nil => exact absurd rfl h
  | cons x xs ih =>
    cases xs with
    | nil => simp
    | cons y ys =>
      rw [argminIdx_cons_cons]
      split
      · have := ih (by simp)
        simpa using Nat.succ_lt_succ this
      · simp

theorem argminIdx_le {l : List ℚ} :
    ∀ k, k < l.length → l.getD (argminIdx l) 0 ≤ l.getD k 0 := by
  induction l with
  | nil => intro k hk; simp at hk
  | cons x xs ih =>
    intro k hk
    cases xs with
    | nil =>
      have hk0 : k = 0 := by simpa using Nat.lt_one_iff.mp (by simpa using hk)
      subst hk0; simp
    | cons y ys =>
      rw [argminIdx_cons_cons]
      split
      · rename_i hlt
        cases k with
        | zero => simpa using le_of_lt hlt
        | succ k' =>
          simp only [List.getD_cons_succ]
          exact ih k' (by simpa using hk)
      · rename_i hge
        push_neg at hge
        cases k with
        | zero => simp
        | succ k' =>
          simp only [List.getD_cons_zero, List.getD_cons_succ]
          exact le_trans hge (ih k' (by simpa using hk))

theorem argminIdx_strict {l : List ℚ} :
    ∀ k, k < argminIdx l → l.getD (argminIdx l) 0 < l.getD k 0 := by
  induction l with
  | nil => intro k hk; simp at hk
  | cons x xs ih =>
    intro k hk
    cases xs with
    | nil => simp at hk
    | cons y ys =>
      by_cases hlt : (y :: ys).getD (argminIdx (y :: ys)) 0 < x
      · rw [argminIdx_cons_cons, if_pos hlt] at hk ⊢
        cases k with
        | zero => simpa using hlt
        | succ k' =>
          simp only [List.getD_cons_succ]
          exact ih k' (by omega)
      · rw [argminIdx_cons_cons, if_neg hlt] at hk
        omega

theorem argminIdx_unique {l : List ℚ} {c : ℕ} (hc : c < l.length)
    (hmin : ∀ k, k < l.length → l.getD c 0 ≤ l.getD k 0)
    (hfirst : ∀ k, k < c → l.getD c 0 < l.getD k 0) :
    argminIdx l = c := by
  have hne : l ≠ [] := by
    intro h; subst h; simp at hc
  have ha := argminIdx_lt_length hne
  by_contra hne'
  rcases Nat.lt_or_ge (argminIdx l) c with h | h
  · have h1 := hfirst (argminIdx l) h
    have h2 := argminIdx_le (l := l) c hc
    linarith
  · have h' : c < argminIdx l := by omega
    have h1 := argminIdx_strict (l := l) c h'
    have h2 := hmin (argminIdx l) ha
    linarith

theorem getD_set_ne {α : Type} (l : List α) {i j : ℕ} (h : i ≠ j) (b d : α) :
    (l.set i b).getD j d = l.getD j d := by
  rcases Nat.lt_or_ge j l.length with hj | hj
  · rw [List.getD_eq_getElem _ _ (by simpa using hj), List.getD_eq_getElem _ _ hj]
    simp [List.getElem_set_ne h]
  · rw [List.getD_eq_default _ _ (by simpa using hj), List.getD_eq_default _ _ hj]

theorem getD_set_self {α : Type} (l : List α) {i : ℕ} (hi : i < l.length) (b d : α) :
    (l.set i b).getD i d = b := by
  rw [List.getD_eq_getElem _ _ (by simpa using hi)]
  simp [List.getElem_set_self]

/-- Modelled from the spec: the state of a Schedule Node — per-channel
availability snapshot, execution times and channels aligned to the original
task index, and the cumulative loss of the placed prefix
(`tree_search.py` is not among the sources). -/
structure NodeState where
  ch_avail : List ℚ
  t_ex : List ℚ
  ch_ex : List ℕ
  l_ex : ℚ
deriving DecidableEq, Repr

/-- Modelled from the spec: the empty root node over `n` tasks — the
initial channel-availability vector, no placed tasks, zero loss. -/
def initNode (n : ℕ) (chAvail : List ℚ) : NodeState :=
  ⟨chAvail, List.replicate n 0, List.replicate n 0, 0⟩

/-- Modelled from the spec: the placement rule of the Schedule Node
evaluator (4.2).  The appended task is assigned to the channel with the
minimum current availability (ties to the lowest channel index), starts at
`max(channel_availability, release_time)`, and that channel's availability
becomes `start_time + duration`. -/
def seqExtendOne (tasks : List Task) (s : NodeState) (i : ℕ) : NodeState :=
  let task := tasks.getD i default
  let c := argminIdx s.ch_avail
  let t := max (s.ch_avail.getD c 0) task.t_release
  { ch_avail := s.ch_avail.set c (t + task.duration)
    t_ex := s.t_ex.set i t
    ch_ex := s.ch_ex.set i c
    l_ex := s.l_ex + task.lossFn t }

/-- Modelled from the spec: the baseline Schedule Node evaluator (4.2) —
tasks are placed one at a time, in the order given. -/
def scheduleNode (tasks : List Task) (chAvail : List ℚ) (seq : List ℕ) : NodeState :=
  seq.foldl (seqExtendOne tasks) (initNode tasks.length chAvail)

theorem seqExtendOne_ch_avail_length (tasks : List Task) (s : NodeState) (i : ℕ) :
    (seqExtendOne tasks s i).ch_avail.length = s.ch_avail.length := by
  simp [seqExtendOne]

theorem seqExtendOne_t_ex_length (tasks : List Task) (s : NodeState) (i : ℕ) :
    (seqExtendOne tasks s i).t_ex.length = s.t_ex.length := by
  simp [seqExtendOne]

theorem seqExtendOne_ch_ex_length (tasks : List Task) (s : NodeState) (i : ℕ) :
    (seqExtendOne tasks s i).ch_ex.length = s.ch_ex.length := by
  simp [seqExtendOne]

theorem foldl_t_ex_stable (tasks : List Task) :
    ∀ (seq : List ℕ) (s : NodeState) (k : ℕ), k ∉ seq →
      (seq.foldl (seqExtendOne tasks) s).t_ex.getD k 0 = s.t_ex.getD k 0 := by
  intro seq
  induction seq with
  | nil => intro s k _; rfl
  | cons a rest ih =>
    intro s k hk
    rw [List.foldl_cons, ih _ k (fun h => hk (List.mem_cons_of_mem _ h))]
    exact getD_set_ne _ (fun h => hk (by rw [← h]; exact List.mem_cons_self a rest)) _ _

theorem foldl_ch_ex_stable (tasks : List Task) :
    ∀ (seq : List ℕ) (s : NodeState) (k : ℕ), k ∉ seq →
      (seq.foldl (seqExtendOne tasks) s).ch_ex.getD k 0 = s.ch_ex.getD k 0 := by
  intro seq
  induction seq with
  | nil => intro s k _; rfl
  | cons a rest ih =>
    intro s k hk
    rw [List.foldl_cons, ih _ k (fun h => hk (List.mem_cons_of_mem _ h))]
    exact getD_set_ne _ (fun h => hk (by rw [← h]; exact List.mem_cons_self a rest)) _ _

theorem foldl_lengths (tasks : List Task) :
    ∀ (seq : List ℕ) (s : NodeState),
      (seq.foldl (seqExtendOne tasks) s).ch_avail.length = s.ch_avail.length ∧
      (seq.foldl (seqExtendOne tasks) s).t_ex.length = s.t_ex.length ∧
      (seq.foldl (seqExtendOne tasks) s).ch_ex.length = s.ch_ex.length := by
  intro seq
  induction seq with
  | nil => intro s; exact ⟨rfl, rfl, rfl⟩
  | cons a rest ih =>
    intro s
    rw [List.foldl_cons]
    refine ⟨?_, ?_, ?_⟩
    · rw [(ih _).1, seqExtendOne_ch_avail_length]
    · rw [(ih _).2.1, seqExtendOne_t_ex_length]
    · rw [(ih _).2.2, seqExtendOne_ch_ex_length]

/-- The priority order on `(availability, channel index)` pairs used by the
incremental evaluator's channel structure: earlier availability first, ties
by lower channel index. -/
def pqR (a b : ℚ × ℕ) : Prop :=
  a.1 < b.1 ∨ (a.1 = b.1 ∧ a.2 ≤ b.2)

instance : DecidableRel pqR := fun a b =>
  inferInstanceAs (Decidable (a.1 < b.1 ∨ (a.1 = b.1 ∧ a.2 ≤ b.2)))

instance : IsTotal (ℚ × ℕ) pqR where
  total a b := by
    unfold pqR
    rcases lt_trichotomy a.1 b.1 with h | h | h
    · exact Or.inl (Or.inl h)
    · rcases Nat.le_total a.2 b.2 with h2 | h2
      · exact Or.inl (Or.inr ⟨h, h2⟩)
      · exact Or.inr (Or.inr ⟨h.symm, h2⟩)
    · exact Or.inr (Or.inl h)

instance : IsTrans (ℚ × ℕ) pqR where
  trans a b c hab hbc := by
    unfold pqR at *
    rcases hab with h1 | ⟨h1, h1'⟩ <;> rcases hbc with h2 | ⟨h2, h2'⟩
    · exact Or.inl (h1.trans h2)
    · exact Or.inl (h2 ▸ h1)
    · exact Or.inl (h1 ▸ h2)
    · exact Or.inr ⟨h1.trans h2, h1'.trans h2'⟩

/-- The channel-availability list seen as `(availability, channel index)`
pairs, the content of the incremental evaluator's priority structure. -/
def chanPairs (l : List ℚ) : List (ℚ × ℕ) :=
  (List.range l.length).map fun k => (l.getD k 0, k)

theorem chanPairs_length (l : List ℚ) : (chanPairs l).length = l.length := by
  simp [chanPairs]

theorem chanPairs_nodup (l : List ℚ) : (chanPairs l).Nodup := by
  refine List.Nodup.map ?_ (List.nodup_range _)
  intro a b hab
  exact congrArg Prod.snd hab

theorem mem_chanPairs {l : List ℚ} {p : ℚ × ℕ} :
    p ∈ chanPairs l ↔ p.2 < l.length ∧ p.1 = l.getD p.2 0 := by
  constructor
  · intro hp
    obtain ⟨k, hk, hke⟩ := List.mem_map.mp hp
    have hk' := List.mem_range.mp hk
    cases hke
    exact ⟨hk', rfl⟩
  · rintro ⟨h1, h2⟩
    refine List.mem_map.mpr ⟨p.2, List.mem_range.mpr h1, ?_⟩
    exact Prod.ext h2.symm rfl

theorem chanPairs_set (l : List ℚ) {c : ℕ} (hc : c < l.length) (v : ℚ) :
    chanPairs (l.set c v) = (chanPairs l).set c (v, c) := by
  apply List.ext_getElem
  · simp [chanPairs]
  · intro k h1 h2
    have hk : k < l.length := by simpa [chanPairs] using h1
    by_cases hkc : k = c
    · subst hkc
      simp only [List.getElem_set_self]
      simp only [chanPairs, List.getElem_map, List.getElem_range]
      exact Prod.ext (getD_set_self l hk v 0) rfl
    · rw [List.getElem_set_ne (h := fun h => hkc h.symm)]
      simp only [chanPairs, List.getElem_map, List.getElem_range]
      exact Prod.ext (getD_set_ne l (fun h => hkc h.symm) v 0) rfl

/-- Modelled from the spec: the state of an Incremental Schedule Node
(4.3) — as 4.2, but the channel availabilities are kept in a structure
ordered for minimum-extraction (4.3 describes a `find-min` / `update-one`
structure; a list kept sorted by `pqR` realises that contract). -/
structure ShiftState where
  pq : List (ℚ × ℕ)
  t_ex : List ℚ
  ch_ex : List ℕ
  l_ex : ℚ
deriving DecidableEq, Repr

/-- Modelled from the spec: the empty root of the incremental evaluator;
the channel pairs are placed into the ordered structure. -/
def initShift (n : ℕ) (chAvail : List ℚ) : ShiftState :=
  ⟨List.insertionSort pqR (chanPairs chAvail), List.replicate n 0, List.replicate n 0, 0⟩

/-- Modelled from the spec: one incremental extension (4.3) — pop the
minimum-availability channel from the ordered structure, place the task on
it, and push the channel back with its updated availability. -/
def shiftExtendOne (tasks : List Task) (s : ShiftState) (i : ℕ) : ShiftState :=
  match s.pq with
  | [] => s
  | (a, c) :: rest =>
      let task := tasks.getD i default
      let t := max a task.t_release
      { pq := List.orderedInsert pqR (t + task.duration, c) rest
        t_ex := s.t_ex.set i t
        ch_ex := s.ch_ex.set i c
        l_ex := s.l_ex + task.lossFn t }

/-- Modelled from the spec: the Incremental Schedule Node evaluator (4.3),
same external contract as the baseline evaluator (4.2). -/
def scheduleNodeShift (tasks : List Task) (chAvail : List ℚ) (seq : List ℕ) : ShiftState :=
  seq.foldl (shiftExtendOne tasks) (initShift tasks.length chAvail)

/-- The correspondence between a baseline node and an incremental node:
same outputs, and the priority structure is a sorted arrangement of the
baseline's channel availabilities. -/
def Rel (s : NodeState) (ss : ShiftState) : Prop :=
  ss.t_ex = s.t_ex ∧ ss.ch_ex = s.ch_ex ∧ ss.l_ex = s.l_ex ∧
    List.Sorted pqR ss.pq ∧ List.Perm ss.pq (chanPairs s.ch_avail)

theorem sorted_head_argmin {l : List ℚ} {a : ℚ} {c : ℕ} {rest : List (ℚ × ℕ)}
    (hsort : List.Sorted pqR ((a, c) :: rest))
    (hperm : List.Perm ((a, c) :: rest) (chanPairs l)) :
    c = argminIdx l ∧ a = l.getD c 0 := by
  have hmem : (a, c) ∈ chanPairs l := hperm.mem_iff.mp (List.mem_cons_self _ _)
  obtain ⟨hc, ha⟩ := mem_chanPairs.mp hmem
  have hall : ∀ k, k < l.length → pqR (a, c) (l.getD k 0, k) := by
    intro k hk
    have hmemk : (l.getD k 0, k) ∈ ((a, c) :: rest) :=
      hperm.mem_iff.mpr (mem_chanPairs.mpr ⟨hk, rfl⟩)
    rcases List.mem_cons.mp hmemk with h | h
    · cases h
      exact Or.inr ⟨rfl, le_refl _⟩
    · exact (List.sorted_cons.mp hsort).1 _ h
  have hmin : ∀ k, k < l.length → l.getD c 0 ≤ l.getD k 0 := by
    intro k hk
    rcases hall k hk with h | ⟨h, -⟩
    · exact le_of_lt (ha ▸ h)
    · exact le_of_eq (ha ▸ h)
  have hfirst : ∀ k, k < c → l.getD c 0 < l.getD k 0 := by
    intro k hkc
    have hk : k < l.length := lt_trans hkc hc
    rcases hall k hk with h | ⟨-, h⟩
    · exact ha ▸ h
    · omega
  exact ⟨(argminIdx_unique hc hmin hfirst).symm, ha⟩

theorem perm_set_eraseIdx {α : Type} (b : α) :
    ∀ (L : List α) (k : ℕ), k < L.length →
      List.Perm (L.set k b) (b :: L.eraseIdx k)
  | x :: xs, 0, _ => by simp
  | x :: xs, k + 1, h => by
    simp only [List.set_cons_succ, List.eraseIdx_cons_succ]
    exact ((perm_set_eraseIdx b xs k (by simpa using h)).cons x).trans
      (List.Perm.swap b x _)

theorem perm_cons_eraseIdx {α : Type} :
    ∀ (L : List α) (k : ℕ) (h : k < L.length),
      List.Perm L (L.get ⟨k, h⟩ :: L.eraseIdx k)
  | x :: xs, 0, _ => by simp
  | x :: xs, k + 1, h => by
    simp only [List.get_eq_getElem, List.getElem_cons_succ, List.eraseIdx_cons_succ]
    have hrec := perm_cons_eraseIdx xs k (by simpa using h)
    simp only [List.get_eq_getElem] at hrec
    exact (hrec.cons x).trans (List.Perm.swap _ x _)

theorem rel_step (tasks : List Task) {s : NodeState} {ss : ShiftState}
    (hrel : Rel s ss) (hne : s.ch_avail ≠ []) (i : ℕ) :
    Rel (seqExtendOne tasks s i) (shiftExtendOne tasks ss i) := by
  obtain ⟨ht, hch, hl, hsort, hperm⟩ := hrel
  have hpq_ne : ss.pq ≠ [] := by
    intro h
    rw [h] at hperm
    have hlen := hperm.length_eq
    rw [chanPairs_length] at hlen
    exact hne (List.length_eq_zero.mp hlen.symm)
  obtain ⟨⟨a, c⟩, rest, hpq⟩ : ∃ p rest, ss.pq = p :: rest := by
    cases hpqv : ss.pq with
    | nil => exact absurd hpqv hpq_ne
    | cons p rest => exact ⟨p, rest, rfl⟩
  rw [hpq] at hsort hperm
  obtain ⟨hc_eq, ha_eq⟩ := sorted_head_argmin hsort hperm
  have hc_lt : c < s.ch_avail.length := by
    rw [hc_eq]; exact argminIdx_lt_length hne
  unfold seqExtendOne shiftExtendOne
  rw [hpq]
  simp only
  refine ⟨?_, ?_, ?_, ?_, ?_⟩
  · rw [ht, ← hc_eq, ← ha_eq]
  · rw [hch, hc_eq]
  · rw [hl, ← hc_eq, ← ha_eq]
  · exact (List.sorted_cons.mp hsort).2.orderedInsert _ _
  · set task := tasks.getD i default with htask
    set t := max a task.t_release with htdef
    have hclen : c < (chanPairs s.ch_avail).length := by
      rw [chanPairs_length]; exact hc_lt
    have hget : (chanPairs s.ch_avail).get ⟨c, hclen⟩ = (a, c) := by
      have hmem : (chanPairs s.ch_avail).get ⟨c, hclen⟩ ∈ chanPairs s.ch_avail :=
        List.get_mem _ _ _
      have h2nd : ((chanPairs s.ch_avail).get ⟨c, hclen⟩).2 = c := by
        simp [chanPairs]
      obtain ⟨hlt, heq⟩ := mem_chanPairs.mp hmem
      refine Prod.ext ?_ h2nd
      rw [heq, h2nd, ha_eq]
    have h1 : List.Perm (List.orderedInsert pqR (t + task.duration, c) rest)
        ((t + task.duration, c) :: rest) := List.perm_orderedInsert _ _ _
    have h2 : List.Perm rest ((chanPairs s.ch_avail).eraseIdx c) := by
      have hp := perm_cons_eraseIdx (chanPairs s.ch_avail) c hclen
      rw [hget] at hp
      exact (hperm.trans hp).cons_inv
    have h3 : List.Perm
        (chanPairs (s.ch_avail.set (argminIdx s.ch_avail) (t + task.duration)))
        ((t + task.duration, c) :: (chanPairs s.ch_avail).eraseIdx c) := by
      rw [← hc_eq, chanPairs_set s.ch_avail hc_lt]
      exact perm_set_eraseIdx _ _ _ hclen
    have hava : s.ch_avail.getD (argminIdx s.ch_avail) 0 = a := by
      rw [← hc_eq, ← ha_eq]
    show List.Perm (List.orderedInsert pqR (t + task.duration, c) rest)
        (chanPairs (s.ch_avail.set (argminIdx s.ch_avail)
          (max (s.ch_avail.getD (argminIdx s.ch_avail) 0) task.t_release + task.duration)))
    rw [hava]
    exact (h1.trans (h2.cons _)).trans h3.symm

theorem rel_init (n : ℕ) (chAvail : List ℚ) :
    Rel (initNode n chAvail) (initShift n chAvail) := by
  refine ⟨rfl, rfl, rfl, ?_, ?_⟩
  · exact List.sorted_insertionSort pqR _
  · exact List.perm_insertionSort pqR _

theorem rel_fold (tasks : List Task) :
    ∀ (seq : List ℕ) (s : NodeState) (ss : ShiftState),
      Rel s ss → s.ch_avail ≠ [] →
      Rel (seq.foldl (seqExtendOne tasks) s) (seq.foldl (shiftExtendOne tasks) ss) := by
  intro seq
  induction seq with
  | nil => intro s ss hrel _; exact hrel
  | cons a rest ih =>
    intro s ss hrel hne
    rw [List.foldl_cons, List.foldl_cons]
    refine ih _ _ (rel_step tasks hrel hne a) ?_
    intro h
    apply hne
    have := congrArg List.length h
    rw [seqExtendOne_ch_avail_length] at this
    exact List.length_eq_zero.mp this

/-- C1: for every task set, channel-availability vector, and permutation of
the task indices, the incremental evaluator (`scheduleNodeShift`) produces
exactly the same execution times `t_ex`, execution channels `ch_ex`, and
total loss `l_ex` as the baseline evaluator (`scheduleNode`) — exact
equality, for every index sequence over a nonempty channel vector. -/
theorem scheduleNodeShift_eq_scheduleNode (tasks : List Task) (chAvail : List ℚ)
    (seq : List ℕ) (hne : chAvail ≠ []) :
    (scheduleNodeShift tasks chAvail seq).t_ex = (scheduleNode tasks chAvail seq).t_ex ∧
    (scheduleNodeShift tasks chAvail seq).ch_ex = (scheduleNode tasks chAvail seq).ch_ex ∧
    (scheduleNodeShift tasks chAvail seq).l_ex = (scheduleNode tasks chAvail seq).l_ex := by
  have h := rel_fold tasks seq (initNode tasks.length chAvail)
    (initShift tasks.length chAvail) (rel_init _ _) hne
  exact ⟨h.1, h.2.1, h.2.2.1⟩

/-- Witness for C1 at a concrete two-task, two-channel instance. -/
theorem scheduleNodeShift_eq_scheduleNode_witness :
    (scheduleNodeShift [⟨1, 0, 1, 10, 10⟩, ⟨2, 1, 1, 10, 10⟩] [0, 1/2] [1, 0]).t_ex =
      (scheduleNode [⟨1, 0, 1, 10, 10⟩, ⟨2, 1, 1, 10, 10⟩] [0, 1/2] [1, 0]).t_ex ∧
    (scheduleNodeShift [⟨1, 0, 1, 10, 10⟩, ⟨2, 1, 1, 10, 10⟩] [0, 1/2] [1, 0]).ch_ex =
      (scheduleNode [⟨1, 0, 1, 10, 10⟩, ⟨2, 1, 1, 10, 10⟩] [0, 1/2] [1, 0]).ch_ex ∧
    (scheduleNodeShift [⟨1, 0, 1, 10, 10⟩, ⟨2, 1, 1, 10, 10⟩] [0, 1/2] [1, 0]).l_ex =
      (scheduleNode [⟨1, 0, 1, 10, 10⟩, ⟨2, 1, 1, 10, 10⟩] [0, 1/2] [1, 0]).l_ex :=
  scheduleNodeShift_eq_scheduleNode _ _ _ (by decide)

/-- C2: the Schedule Node evaluator places tasks one at a time in the
given order (appending an index to the sequence extends the fold by one
step); each appended task goes to the channel of minimum current
availability, with ties broken by the lowest channel index; its start time
is `max(channel_availability, release_time)`; and that channel's
availability is updated to `start_time + duration`, with `t_ex` and
`ch_ex` recorded at the task's original index. -/
theorem scheduleNode_placement_rule (tasks : List Task) (chAvail : List ℚ)
    (seq : List ℕ) (i : ℕ) (s : NodeState) (hne : s.ch_avail ≠ []) :
    scheduleNode tasks chAvail (seq ++ [i]) =
      seqExtendOne tasks (scheduleNode tasks chAvail seq) i ∧
    argminIdx s.ch_avail < s.ch_avail.length ∧
    (∀ k, k < s.ch_avail.length →
      s.ch_avail.getD (argminIdx s.ch_avail) 0 ≤ s.ch_avail.getD k 0) ∧
    (∀ k, k < argminIdx s.ch_avail →
      s.ch_avail.getD (argminIdx s.ch_avail) 0 < s.ch_avail.getD k 0) ∧
    seqExtendOne tasks s i =
      { ch_avail := s.ch_avail.set (argminIdx s.ch_avail)
          (max (s.ch_avail.getD (argminIdx s.ch_avail) 0) (tasks.getD i default).t_release +
            (tasks.getD i default).duration)
        t_ex := s.t_ex.set i
          (max (s.ch_avail.getD (argminIdx s.ch_avail) 0) (tasks.getD i default).t_release)
        ch_ex := s.ch_ex.set i (argminIdx s.ch_avail)
        l_ex := s.l_ex + (tasks.getD i default).lossFn
          (max (s.ch_avail.getD (argminIdx s.ch_avail) 0) (tasks.getD i default).t_release) } := by
  refine ⟨?_, argminIdx_lt_length hne, fun k hk => argminIdx_le k hk,
    fun k hk => argminIdx_strict k hk, rfl⟩
  simp [scheduleNode, List.foldl_append]

/-- Witness for C2 at a concrete instance. -/
theorem scheduleNode_placement_rule_witness :
    scheduleNode [⟨1, 0, 1, 10, 10⟩, ⟨2, 1, 1, 10, 10⟩] [0, 2] ([0] ++ [1]) =
      seqExtendOne [⟨1, 0, 1, 10, 10⟩, ⟨2, 1, 1, 10, 10⟩]
        (scheduleNode [⟨1, 0, 1, 10, 10⟩, ⟨2, 1, 1, 10, 10⟩] [0, 2] [0]) 1 ∧
    argminIdx [(3 : ℚ), 3] < [(3 : ℚ), 3].length ∧
    (∀ k, k < [(3 : ℚ), 3].length →
      [(3 : ℚ), 3].getD (argminIdx [(3 : ℚ), 3]) 0 ≤ [(3 : ℚ), 3].getD k 0) ∧
    (∀ k, k < argminIdx [(3 : ℚ), 3] →
      [(3 : ℚ), 3].getD (argminIdx [(3 : ℚ), 3]) 0 < [(3 : ℚ), 3].getD k 0) ∧
    seqExtendOne [⟨1, 0, 1, 10, 10⟩, ⟨2, 1, 1, 10, 10⟩] ⟨[3, 3], [0, 0], [0, 0], 0⟩ 1 =
      { ch_avail := [(3 : ℚ), 3].set (argminIdx [(3 : ℚ), 3])
          (max ([(3 : ℚ), 3].getD (argminIdx [(3 : ℚ), 3]) 0)
            ([⟨1, 0, 1, 10, 10⟩, ⟨2, 1, 1, 10, 10⟩].getD 1 (default : Task)).t_release +
            ([⟨1, 0, 1, 10, 10⟩, ⟨2, 1, 1, 10, 10⟩].getD 1 (default : Task)).duration)
        t_ex := [(0 : ℚ), 0].set 1
          (max ([(3 : ℚ), 3].getD (argminIdx [(3 : ℚ), 3]) 0)
            ([⟨1, 0, 1, 10, 10⟩, ⟨2, 1, 1, 10, 10⟩].getD 1 (default : Task)).t_release)
        ch_ex := [0, 0].set 1 (argminIdx [(3 : ℚ), 3])
        l_ex := 0 + ([⟨1, 0, 1, 10, 10⟩, ⟨2, 1, 1, 10, 10⟩].getD 1 (default : Task)).lossFn
          (max ([(3 : ℚ), 3].getD (argminIdx [(3 : ℚ), 3]) 0)
            ([⟨1, 0, 1, 10, 10⟩, ⟨2, 1, 1, 10, 10⟩].getD 1 (default : Task)).t_release) } :=
  scheduleNode_placement_rule [⟨1, 0, 1, 10, 10⟩, ⟨2, 1, 1, 10, 10⟩] [0, 2] [0] 1
    ⟨[3, 3], [0, 0], [0, 0], 0⟩ (by decide)

theorem getD_mem {α : Type} {l : List α} {i : ℕ} (h : i < l.length) (d : α) :
    l.getD i d ∈ l := by
  rw [List.getD_eq_getElem _ _ h]
  exact List.getElem_mem _

/-- Separation of the execution intervals of tasks `i` and `j` in the
schedule held by a node: one of them ends no later than the other starts,
so the half-open intervals `[t_ex, t_ex + duration)` do not overlap. -/
def Disj (tasks : List Task) (s : NodeState) (i j : ℕ) : Prop :=
  s.t_ex.getD i 0 + (tasks.getD i default).duration ≤ s.t_ex.getD j 0 ∨
  s.t_ex.getD j 0 + (tasks.getD j default).duration ≤ s.t_ex.getD i 0

/-- The schedule invariant maintained by the evaluator's fold: array
lengths, channel availabilities never below their initial values, every
placed task released before it starts, every placed task ending no later
than its channel's availability (and starting no earlier than that
channel's initial availability), and interval separation on every channel. -/
def SchedInv (tasks : List Task) (chInit : List ℚ) (placed : List ℕ) (s : NodeState) : Prop :=
  s.ch_avail.length = chInit.length ∧
  s.t_ex.length = tasks.length ∧
  s.ch_ex.length = tasks.length ∧
  (∀ m, m < chInit.length → chInit.getD m 0 ≤ s.ch_avail.getD m 0) ∧
  (∀ i ∈ placed, (tasks.getD i default).t_release ≤ s.t_ex.getD i 0) ∧
  (∀ i ∈ placed, s.ch_ex.getD i 0 < chInit.length ∧
    s.t_ex.getD i 0 + (tasks.getD i default).duration ≤
      s.ch_avail.getD (s.ch_ex.getD i 0) 0 ∧
    chInit.getD (s.ch_ex.getD i 0) 0 ≤ s.t_ex.getD i 0) ∧
  (∀ i ∈ placed, ∀ j ∈ placed, i ≠ j →
    s.ch_ex.getD i 0 = s.ch_ex.getD j 0 → Disj tasks s i j)

theorem inv_init (tasks : List Task) (chAvail : List ℚ) :
    SchedInv tasks chAvail [] (initNode tasks.length chAvail) := by
  refine ⟨rfl, by simp [initNode], by simp [initNode], fun m hm => le_refl _,
    ?_, ?_, ?_⟩ <;> simp

theorem inv_congr {tasks : List Task} {chInit : List ℚ} {p q : List ℕ} {s : NodeState}
    (hpq : ∀ x, x ∈ p ↔ x ∈ q) (h : SchedInv tasks chInit p s) :
    SchedInv tasks chInit q s := by
  obtain ⟨h1, h2, h3, h4, h5, h6, h7⟩ := h
  exact ⟨h1, h2, h3, h4,
    fun i hi => h5 i ((hpq i).mpr hi),
    fun i hi => h6 i ((hpq i).mpr hi),
    fun i hi j hj => h7 i ((hpq i).mpr hi) j ((hpq j).mpr hj)⟩

theorem inv_step {tasks : List Task} {chInit : List ℚ} {placed : List ℕ} {s : NodeState}
    (hinv : SchedInv tasks chInit placed s)
    (hdur : ∀ task ∈ tasks, 0 ≤ task.duration)
    (hch : chInit ≠ []) {i : ℕ} (hi : i < tasks.length) (hni : i ∉ placed) :
    SchedInv tasks chInit (i :: placed) (seqExtendOne tasks s i) := by
  obtain ⟨hlen, hlent, hlenc, hinit, hrel, hbound, hdisj⟩ := hinv
  have hne : s.ch_avail ≠ [] := by
    intro h
    apply hch
    apply List.length_eq_zero.mp
    rw [← hlen, h]
    rfl
  set c := argminIdx s.ch_avail with hc
  have hclen : c < s.ch_avail.length := argminIdx_lt_length hne
  have hclen' : c < chInit.length := by rwa [hlen] at hclen
  set task := tasks.getD i default with htask
  have htmem : task ∈ tasks := getD_mem hi default
  have hd : 0 ≤ task.duration := hdur task htmem
  set t := max (s.ch_avail.getD c 0) task.t_release with ht
  have havt : s.ch_avail.getD c 0 ≤ t := le_max_left _ _
  have hrelt : task.t_release ≤ t := le_max_right _ _
  have hstep : seqExtendOne tasks s i =
      ⟨s.ch_avail.set c (t + task.duration), s.t_ex.set i t, s.ch_ex.set i c,
        s.l_ex + task.lossFn t⟩ := rfl
  rw [hstep]
  have htexi : (s.t_ex.set i t).getD i 0 = t :=
    getD_set_self _ (by rwa [hlent]) _ _
  have hchexi : (s.ch_ex.set i c).getD i 0 = c :=
    getD_set_self _ (by rwa [hlenc]) _ _
  have htex_old : ∀ j ∈ placed, (s.t_ex.set i t).getD j 0 = s.t_ex.getD j 0 := by
    intro j hj
    exact getD_set_ne _ (fun h => hni (by rw [h]; exact hj)) _ _
  have hchex_old : ∀ j ∈ placed, (s.ch_ex.set i c).getD j 0 = s.ch_ex.getD j 0 := by
    intro j hj
    exact getD_set_ne _ (fun h => hni (by rw [h]; exact hj)) _ _
  have havail_new : ∀ m, m < chInit.length →
      s.ch_avail.getD m 0 ≤ (s.ch_avail.set c (t + task.duration)).getD m 0 := by
    intro m hm
    by_cases hmc : m = c
    · subst hmc
      rw [getD_set_self _ hclen]
      linarith
    · rw [getD_set_ne _ (fun h => hmc h.symm) _ _]
  refine ⟨?_, ?_, ?_, ?_, ?_, ?_, ?_⟩
  · simpa using hlen
  · simpa using hlent
  · simpa using hlenc
  · intro m hm
    exact le_trans (hinit m hm) (havail_new m hm)
  · intro j hj
    rcases List.mem_cons.mp hj with h | h
    · subst h
      rw [htexi]
      exact hrelt
    · rw [htex_old j h]
      exact hrel j h
  · intro j hj
    rcases List.mem_cons.mp hj with h | h
    · subst h
      rw [htexi, hchexi]
      refine ⟨hclen', ?_, ?_⟩
      · rw [getD_set_self _ hclen]
      · exact le_trans (le_trans (hinit c hclen') havt) (le_refl t)
    · rw [htex_old j h, hchex_old j h]
      obtain ⟨hb1, hb2, hb3⟩ := hbound j h
      refine ⟨hb1, ?_, hb3⟩
      refine le_trans hb2 (havail_new _ ?_)
      exact hb1
  · intro j hj k hk hjk hcheq
    rcases List.mem_cons.mp hj with h | h <;> rcases List.mem_cons.mp hk with h' | h'
    · exact absurd (h.trans h'.symm) hjk
    · -- j is the new task, k was already placed on the same channel
      subst h
      rw [hchexi, hchex_old k h'] at hcheq
      obtain ⟨-, hb2, -⟩ := hbound k h'
      right
      rw [htexi, htex_old k h']
      calc s.t_ex.getD k 0 + (tasks.getD k default).duration
          ≤ s.ch_avail.getD (s.ch_ex.getD k 0) 0 := hb2
        _ = s.ch_avail.getD c 0 := by rw [← hcheq]
        _ ≤ t := havt
    · subst h'
      rw [hchexi, hchex_old j h] at hcheq
      obtain ⟨-, hb2, -⟩ := hbound j h
      left
      rw [htexi, htex_old j h]
      calc s.t_ex.getD j 0 + (tasks.getD j default).duration
          ≤ s.ch_avail.getD (s.ch_ex.getD j 0) 0 := hb2
        _ = s.ch_avail.getD c 0 := by rw [← hcheq]
        _ ≤ t := havt
    · rw [hchex_old j h, hchex_old k h'] at hcheq
      have := hdisj j h k h' hjk hcheq
      unfold Disj at this ⊢
      rw [htex_old j h, htex_old k h']
      exact this

theorem inv_fold {tasks : List Task} {chInit : List ℚ}
    (hdur : ∀ task ∈ tasks, 0 ≤ task.duration) (hch : chInit ≠ []) :
    ∀ (seq placed : List ℕ) (s : NodeState),
      SchedInv tasks chInit placed s →
      (∀ i ∈ seq, i < tasks.length) → (∀ i ∈ seq, i ∉ placed) → seq.Nodup →
      SchedInv tasks chInit (seq ++ placed) (seq.foldl (seqExtendOne tasks) s) := by
  intro seq
  induction seq with
  | nil => intro placed s h _ _ _; exact h
  | cons a rest ih =>
    intro placed s hinv hlt hnotin hnd
    rw [List.foldl_cons]
    have hstep := inv_step hinv hdur hch (hlt a (List.mem_cons_self _ _))
      (hnotin a (List.mem_cons_self _ _))
    have hrest := ih (a :: placed) _ hstep
      (fun i hi => hlt i (List.mem_cons_of_mem _ hi))
      (fun i hi => by
        intro hmem
        rcases List.mem_cons.mp hmem with h | h
        · exact (List.nodup_cons.mp hnd).1 (h ▸ hi)
        · exact hnotin i (List.mem_cons_of_mem _ hi) h)
      (List.nodup_cons.mp hnd).2
    refine inv_congr (fun x => ?_) hrest
    simp only [List.mem_append, List.mem_cons]
    tauto

/-- C3: the schedule computed by the evaluator (through which every
scheduler component produces its output) is feasible: on every channel the
execution intervals `[t_ex, t_ex + duration)` of the tasks assigned to it
are pairwise separated, and every task starts no earlier than its release
time. -/
theorem scheduleNode_feasible (tasks : List Task) (chAvail : List ℚ) (seq : List ℕ)
    (hdur : ∀ task ∈ tasks, 0 ≤ task.duration) (hch : chAvail ≠ [])
    (hlt : ∀ i ∈ seq, i < tasks.length) (hnd : seq.Nodup) :
    (∀ i ∈ seq, (tasks.getD i default).t_release ≤
      (scheduleNode tasks chAvail seq).t_ex.getD i 0) ∧
    (∀ i ∈ seq, ∀ j ∈ seq, i ≠ j →
      (scheduleNode tasks chAvail seq).ch_ex.getD i 0 =
        (scheduleNode tasks chAvail seq).ch_ex.getD j 0 →
      Disj tasks (scheduleNode tasks chAvail seq) i j) := by
  have h := inv_fold hdur hch seq [] (initNode tasks.length chAvail)
    (inv_init tasks chAvail) hlt (by simp) hnd
  rw [List.append_nil] at h
  exact ⟨h.2.2.2.2.1, h.2.2.2.2.2.2⟩

/-- Witness for C3 at a concrete three-task, one-channel instance. -/
theorem scheduleNode_feasible_witness :
    (∀ i ∈ [2, 0, 1], (([⟨1, 0, 1, 10, 10⟩, ⟨2, 1, 1, 10, 10⟩, ⟨1, 3, 2, 3, 10⟩] : List Task).getD i
        default).t_release ≤
      (scheduleNode [⟨1, 0, 1, 10, 10⟩, ⟨2, 1, 1, 10, 10⟩, ⟨1, 3, 2, 3, 10⟩] [0] [2, 0, 1]).t_ex.getD i 0) ∧
    (∀ i ∈ [2, 0, 1], ∀ j ∈ [2, 0, 1], i ≠ j →
      (scheduleNode [⟨1, 0, 1, 10, 10⟩, ⟨2, 1, 1, 10, 10⟩, ⟨1, 3, 2, 3, 10⟩] [0] [2, 0, 1]).ch_ex.getD i 0 =
        (scheduleNode [⟨1, 0, 1, 10, 10⟩, ⟨2, 1, 1, 10, 10⟩, ⟨1, 3, 2, 3, 10⟩] [0] [2, 0, 1]).ch_ex.getD j 0 →
      Disj [⟨1, 0, 1, 10, 10⟩, ⟨2, 1, 1, 10, 10⟩, ⟨1, 3, 2, 3, 10⟩]
        (scheduleNode [⟨1, 0, 1, 10, 10⟩, ⟨2, 1, 1, 10, 10⟩, ⟨1, 3, 2, 3, 10⟩] [0] [2, 0, 1]) i j) :=
  scheduleNode_feasible ([⟨1, 0, 1, 10, 10⟩, ⟨2, 1, 1, 10, 10⟩, ⟨1, 3, 2, 3, 10⟩] : List Task)
    [0] [2, 0, 1] (by decide) (by decide) (by decide) (by decide)

/-- From `env_tasking.py`: the state a `StepTaskingEnv` keeps between
steps — the current tree node and `loss_agg`, the cumulative loss recorded
after the previous step. -/
structure StepEnvState where
  node : NodeState
  loss_agg : ℚ
deriving DecidableEq, Repr

/-- From `env_tasking.py` (`StepTaskingEnv.reset`): the node becomes the
empty root and `loss_agg` is initialised to that node's loss. -/
def stepTaskingReset (tasks : List Task) (chAvail : List ℚ) : StepEnvState :=
  let node := initNode tasks.length chAvail
  ⟨node, node.l_ex⟩

/-- From `env_tasking.py` (`StepTaskingEnv.step`): the node's sequence is
extended by the action; the reward is `loss_agg - node.l_ex` (previous
cumulative loss minus new cumulative loss) and `loss_agg` becomes the new
cumulative loss. -/
def stepTaskingStep (tasks : List Task) (s : StepEnvState) (action : ℕ) :
    StepEnvState × ℚ :=
  let node := seqExtendOne tasks s.node action
  (⟨node, node.l_ex⟩, s.loss_agg - node.l_ex)

/-- From `env_tasking.py` (`SeqTaskingEnv.step`): the whole ordering is
assigned to the node's sequence at once and the single episode reward is
`-1 * node.l_ex`. -/
def seqTaskingStepReward (tasks : List Task) (chAvail : List ℚ) (action : List ℕ) : ℚ :=
  -(scheduleNode tasks chAvail action).l_ex

/-- A complete `StepTaskingEnv` episode: the steps are applied one action
at a time, collecting the per-step rewards. -/
def runEpisode (tasks : List Task) : StepEnvState → List ℕ → StepEnvState × List ℚ
  | s, [] => (s, [])
  | s, a :: rest =>
      let step := stepTaskingStep tasks s a
      let tail := runEpisode tasks step.1 rest
      (tail.1, step.2 :: tail.2)

/-- C4: appending any in-range task to a Schedule Node's sequence never
decreases its cumulative loss `l_ex`, and every `StepTaskingEnv` step
reward (previous cumulative loss minus new cumulative loss) is at most
zero, consistent with the declared reward range `(-inf, 0)`. -/
theorem seq_extend_monotone (tasks : List Task) (hvalid : ∀ task ∈ tasks, task.Valid)
    (i : ℕ) (hi : i < tasks.length) (s : NodeState) (es : StepEnvState)
    (hes : es.loss_agg = es.node.l_ex) :
    s.l_ex ≤ (seqExtendOne tasks s i).l_ex ∧ (stepTaskingStep tasks es i).2 ≤ 0 := by
  have hloss : ∀ (s' : NodeState), s'.l_ex ≤ (seqExtendOne tasks s' i).l_ex := by
    intro s'
    have hv : (tasks.getD i default).Valid := hvalid _ (getD_mem hi default)
    have hL : 0 ≤ (tasks.getD i default).lossFn
        (max (s'.ch_avail.getD (argminIdx s'.ch_avail) 0) (tasks.getD i default).t_release) :=
      Task.lossFn_nonneg hv (le_max_right _ _)
    show s'.l_ex ≤ s'.l_ex + _
    linarith
  refine ⟨hloss s, ?_⟩
  have h := hloss es.node
  show es.loss_agg - (seqExtendOne tasks es.node i).l_ex ≤ 0
  rw [hes]
  linarith

/-- Witness for C4 at a concrete instance. -/
theorem seq_extend_monotone_witness :
    (⟨[(0 : ℚ)], [0, 0], [0, 0], 5⟩ : NodeState).l_ex ≤
      (seqExtendOne [⟨1, 0, 1, 10, 10⟩, ⟨2, 1, 1, 10, 10⟩]
        ⟨[(0 : ℚ)], [0, 0], [0, 0], 5⟩ 1).l_ex ∧
    (stepTaskingStep [⟨1, 0, 1, 10, 10⟩, ⟨2, 1, 1, 10, 10⟩]
      ⟨⟨[(0 : ℚ)], [0, 0], [0, 0], 5⟩, 5⟩ 1).2 ≤ 0 :=
  seq_extend_monotone [⟨1, 0, 1, 10, 10⟩, ⟨2, 1, 1, 10, 10⟩] (by norm_num [Task.Valid]) 1 (by decide)
    ⟨[(0 : ℚ)], [0, 0], [0, 0], 5⟩ ⟨⟨[(0 : ℚ)], [0, 0], [0, 0], 5⟩, 5⟩ rfl

theorem runEpisode_node (tasks : List Task) :
    ∀ (acts : List ℕ) (s : StepEnvState),
      (runEpisode tasks s acts).1.node = acts.foldl (seqExtendOne tasks) s.node := by
  intro acts
  induction acts with
  | nil => intro s; rfl
  | cons a rest ih =>
    intro s
    rw [List.foldl_cons]
    exact ih _

theorem runEpisode_sum (tasks : List Task) :
    ∀ (acts : List ℕ) (s : StepEnvState),
      (runEpisode tasks s acts).2.sum = s.loss_agg - (runEpisode tasks s acts).1.loss_agg := by
  intro acts
  induction acts with
  | nil => intro s; simp [runEpisode]
  | cons a rest ih =>
    intro s
    show ((stepTaskingStep tasks s a).2 ::
        (runEpisode tasks (stepTaskingStep tasks s a).1 rest).2).sum =
      s.loss_agg - (runEpisode tasks (stepTaskingStep tasks s a).1 rest).1.loss_agg
    rw [List.sum_cons, ih]
    have h1 : (stepTaskingStep tasks s a).2 =
        s.loss_agg - (seqExtendOne tasks s.node a).l_ex := rfl
    have h2 : (stepTaskingStep tasks s a).1.loss_agg =
        (seqExtendOne tasks s.node a).l_ex := rfl
    rw [h1, h2]
    ring

theorem runEpisode_loss_agg (tasks : List Task) :
    ∀ (acts : List ℕ) (s : StepEnvState), s.loss_agg = s.node.l_ex →
      (runEpisode tasks s acts).1.loss_agg = (runEpisode tasks s acts).1.node.l_ex := by
  intro acts
  induction acts with
  | nil => intro s h; exact h
  | cons a rest ih =>
    intro s _
    exact ih _ rfl

/-- C10: over a complete `StepTaskingEnv` episode the per-step rewards
telescope — their sum equals the initial node loss minus the final node
loss, i.e. the negative of the total loss of the fully scheduled
sequence, which is exactly the single reward `SeqTaskingEnv` returns for
the same complete ordering. -/
theorem episode_rewards_telescope (tasks : List Task) (chAvail : List ℚ) (acts : List ℕ)
    (hperm : List.Perm acts (List.range tasks.length)) :
    (runEpisode tasks (stepTaskingReset tasks chAvail) acts).2.sum =
      (stepTaskingReset tasks chAvail).node.l_ex -
        (runEpisode tasks (stepTaskingReset tasks chAvail) acts).1.node.l_ex ∧
    (runEpisode tasks (stepTaskingReset tasks chAvail) acts).2.sum =
      -(scheduleNode tasks chAvail acts).l_ex ∧
    (runEpisode tasks (stepTaskingReset tasks chAvail) acts).2.sum =
      seqTaskingStepReward tasks chAvail acts := by
  have h1 := runEpisode_sum tasks acts (stepTaskingReset tasks chAvail)
  have h2 := runEpisode_loss_agg tasks acts (stepTaskingReset tasks chAvail) rfl
  have h3 := runEpisode_node tasks acts (stepTaskingReset tasks chAvail)
  have hinit : (stepTaskingReset tasks chAvail).loss_agg =
      (stepTaskingReset tasks chAvail).node.l_ex := rfl
  have hinit0 : (stepTaskingReset tasks chAvail).node.l_ex = 0 := rfl
  have hfin : (runEpisode tasks (stepTaskingReset tasks chAvail) acts).1.node.l_ex =
      (scheduleNode tasks chAvail acts).l_ex := by
    rw [h3]; rfl
  refine ⟨?_, ?_, ?_⟩
  · rw [h1, h2, hinit]
  · rw [h1, h2, hinit, hinit0, hfin]
    ring
  · rw [h1, h2, hinit, hinit0, hfin]
    show 0 - _ = -(scheduleNode tasks chAvail acts).l_ex
    ring

/-- Witness for C10 at a concrete complete episode. -/
theorem episode_rewards_telescope_witness :
    (runEpisode [⟨1, 0, 1, 10, 10⟩, ⟨2, 1, 1, 10, 10⟩]
        (stepTaskingReset [⟨1, 0, 1, 10, 10⟩, ⟨2, 1, 1, 10, 10⟩] [0]) [1, 0]).2.sum =
      (stepTaskingReset [⟨1, 0, 1, 10, 10⟩, ⟨2, 1, 1, 10, 10⟩] [0]).node.l_ex -
        (runEpisode [⟨1, 0, 1, 10, 10⟩, ⟨2, 1, 1, 10, 10⟩]
          (stepTaskingReset [⟨1, 0, 1, 10, 10⟩, ⟨2, 1, 1, 10, 10⟩] [0]) [1, 0]).1.node.l_ex ∧
    (runEpisode [⟨1, 0, 1, 10, 10⟩, ⟨2, 1, 1, 10, 10⟩]
        (stepTaskingReset [⟨1, 0, 1, 10, 10⟩, ⟨2, 1, 1, 10, 10⟩] [0]) [1, 0]).2.sum =
      -(scheduleNode [⟨1, 0, 1, 10, 10⟩, ⟨2, 1, 1, 10, 10⟩] [0] [1, 0]).l_ex ∧
    (runEpisode [⟨1, 0, 1, 10, 10⟩, ⟨2, 1, 1, 10, 10⟩]
        (stepTaskingReset [⟨1, 0, 1, 10, 10⟩, ⟨2, 1, 1, 10, 10⟩] [0]) [1, 0]).2.sum =
      seqTaskingStepReward [⟨1, 0, 1, 10, 10⟩, ⟨2, 1, 1, 10, 10⟩] [0] [1, 0] :=
  episode_rewards_telescope [⟨1, 0, 1, 10, 10⟩, ⟨2, 1, 1, 10, 10⟩] [0] [1, 0] (by decide)

/-- From `env_tasking.py` and `spaces.py`: the membership test of the
sequence spaces — `(np.sort(np.asarray(x, dtype=int)) == np.arange(n)).all()`;
the input is taken after the integer cast, and `np.sort` is modelled by a
sort of the list. -/
def npSortedEqArange (n : ℕ) (x : List ℤ) : Bool :=
  decide (List.insertionSort (· ≤ ·) x = (List.range n).map Int.ofNat)

/-- From `env_tasking.py` (`Sequence.contains`). -/
def sequenceContains (n : ℕ) (x : List ℤ) : Bool := npSortedEqArange n x

/-- From `spaces.py` (`Permutation.contains`), same body as
`Sequence.contains`. -/
def permutationContains (n : ℕ) (x : List ℤ) : Bool := npSortedEqArange n x

theorem sorted_range_map (n : ℕ) :
    List.Sorted (· ≤ ·) ((List.range n).map (Int.ofNat)) := by
  refine List.Pairwise.map _ ?_ (List.pairwise_lt_range n)
  intro a b hab
  exact Int.ofNat_le.mpr (le_of_lt hab)

/-- C8: the sequence-space membership test (`Sequence.contains` in the env
wrapper, `Permutation.contains` in spaces — identical bodies) returns
`True` exactly when the integer sequence is a permutation of `0..n-1`
(no duplicate or missing index); every other ordering is rejected. -/
theorem contains_iff_perm (n : ℕ) (x : List ℤ) :
    (sequenceContains n x = true ↔ List.Perm x ((List.range n).map Int.ofNat)) ∧
    permutationContains n x = sequenceContains n x := by
  refine ⟨?_, rfl⟩
  unfold sequenceContains npSortedEqArange
  rw [decide_eq_true_iff]
  constructor
  · intro h
    exact (List.perm_insertionSort (· ≤ ·) x).symm.trans (h ▸ List.Perm.refl _)
  · intro hp
    refine List.eq_of_perm_of_sorted ?_ (List.sorted_insertionSort (· ≤ ·) x)
      (sorted_range_map n)
    exact (List.perm_insertionSort (· ≤ ·) x).trans hp

/-- From `env_tasking.py` (`BaseTaskingEnv.reset`): the two error shapes a
Python run of `reset` can produce — `TypeError` from `len(None)` and the
explicit `ValueError`. -/
inductive PyError where
  | typeError : PyError
  | valueError : PyError
deriving DecidableEq, Repr

/-- Python's `len` applied to an argument that may be `None`: `len(None)`
raises `TypeError`. -/
def pyLen {α : Type} : Option (List α) → Except PyError ℕ
  | none => Except.error PyError.typeError
  | some l => Except.ok l.length

/-- From `env_tasking.py` (`BaseTaskingEnv.reset`), line for line:
`len(tasks)` is evaluated first (raising `TypeError` when `tasks is
None`); a length mismatch raises `ValueError` (short-circuiting before
`len(ch_avail)`); then `len(ch_avail)` is evaluated and checked; only then
do the `is None` fallbacks (`genTasks`, `genChAvail` standing for the
random generators) and the assignments run. -/
def baseReset (nTasks nCh : ℕ) (genTasks : List Task) (genChAvail : List ℚ)
    (tasks : Option (List Task)) (chAvail : Option (List ℚ)) :
    Except PyError (List Task × List ℚ) :=
  match pyLen tasks with
  | Except.error e => Except.error e
  | Except.ok lt =>
    if lt ≠ nTasks then
      Except.error PyError.valueError
    else
      match pyLen chAvail with
      | Except.error e => Except.error e
      | Except.ok lc =>
        if lc ≠ nCh then
          Except.error PyError.valueError
        else
          Except.ok (tasks.getD genTasks, chAvail.getD genChAvail)

/-- C9: `reset` with `tasks=None` always fails with `TypeError` before any
problem generation (because `len(tasks)` is evaluated before the `None`
check); the random-generation fallback is unreachable (the result never
depends on the generators); `reset` succeeds exactly when both `tasks` and
`ch_avail` are supplied with the configured lengths; and it raises
`ValueError` exactly when a supplied argument's length differs from the
configured `n_tasks` or `n_ch`. -/
theorem reset_behaviour (nTasks nCh : ℕ) (g1 g2 : List Task) (c1 c2 : List ℚ)
    (tasks : Option (List Task)) (chAvail : Option (List ℚ)) :
    (∀ ch', baseReset nTasks nCh g1 c1 none ch' = Except.error PyError.typeError) ∧
    baseReset nTasks nCh g1 c1 tasks chAvail = baseReset nTasks nCh g2 c2 tasks chAvail ∧
    ((∃ v, baseReset nTasks nCh g1 c1 tasks chAvail = Except.ok v) ↔
      ∃ ts cs, tasks = some ts ∧ chAvail = some cs ∧
        ts.length = nTasks ∧ cs.length = nCh) ∧
    (baseReset nTasks nCh g1 c1 tasks chAvail = Except.error PyError.valueError ↔
      (∃ ts, tasks = some ts ∧ ts.length ≠ nTasks) ∨
      (∃ ts cs, tasks = some ts ∧ ts.length = nTasks ∧
        chAvail = some cs ∧ cs.length ≠ nCh)) := by
  refine ⟨fun ch' => rfl, ?_, ?_, ?_⟩
  · cases tasks with
    | none => rfl
    | some ts =>
      by_cases hts : ts.length = nTasks
      · cases chAvail with
        | none => simp [baseReset, pyLen, hts]
        | some cs => simp [baseReset, pyLen, hts]
      · simp [baseReset, pyLen, hts]
  · cases tasks with
    | none => simp [baseReset, pyLen]
    | some ts =>
      by_cases hts : ts.length = nTasks
      · cases chAvail with
        | none => simp [baseReset, pyLen, hts]
        | some cs =>
          by_cases hcs : cs.length = nCh
          · simp [baseReset, pyLen, hts, hcs]
          · simp [baseReset, pyLen, hts, hcs]
      · simp [baseReset, pyLen, hts]
  · cases tasks with
    | none => simp [baseReset, pyLen]
    | some ts =>
      by_cases hts : ts.length = nTasks
      · cases chAvail with
        | none => simp [baseReset, pyLen, hts]
        | some cs =>
          by_cases hcs : cs.length = nCh
          · simp [baseReset, pyLen, hts, hcs]
          · simp [baseReset, pyLen, hts, hcs]
      · simp [baseReset, pyLen, hts]

/-- From `env_tasking.py` (`BaseTaskingEnv.reset`, lines 96-98): the data
the `TreeNode` CLASS attributes hold — `TreeNode._tasks` and
`TreeNode._ch_avail_init` are assigned on the class, so there is one such
cell shared by every environment instance and every node. -/
structure TreeNodeClass where
  tasksAttr : List Task
  chAvailAttr : List ℚ
deriving DecidableEq, Repr

/-- From `env_tasking.py`: the per-instance state an environment keeps
after `reset` — its own `self.tasks`, `self.ch_avail` references and the
sequence of its current node (`TreeNode()` starts empty). -/
structure EnvInstance where
  tasks : List Task
  ch_avail : List ℚ
  nodeSeq : List ℕ
deriving DecidableEq, Repr

/-- From `env_tasking.py` (`BaseTaskingEnv.reset`): stores the arguments
on the instance, overwrites the shared `TreeNode` class attributes with
them, and creates a fresh empty node. -/
def envReset (cls : TreeNodeClass) (tasks : List Task) (chAvail : List ℚ) :
    TreeNodeClass × EnvInstance :=
  (⟨tasks, chAvail⟩, ⟨tasks, chAvail, []⟩)

/-- Modelled from the spec: a `TreeNode` evaluation (`tree_search.py` is
not among the sources).  A node stores only its sequence; the tasks and
initial channel availabilities it schedules against are read from the
`TreeNode` class attributes — the wiring `TreeNode()` with no arguments in
`env_tasking.py` forces the node to obtain them from the class cell. -/
def nodeEval (cls : TreeNodeClass) (seq : List ℕ) : NodeState :=
  scheduleNode cls.tasksAttr cls.chAvailAttr seq

/-- C7 counterexample: resetting a second environment instance changes the
shared `TreeNode` class cell, so the node state observed through it by the
first instance (here the evaluation of the first instance's node sequence
`[0]`) is NOT left unchanged: with the claim's own data flow, the same
node evaluates to a different schedule after the other instance's reset. -/
theorem reset_no_shared_state_counterexample :
    (envReset (envReset ⟨[], []⟩ [⟨1, 0, 1, 100, 100⟩] [1]).1
        [⟨1, 0, 2, 100, 100⟩] [1]).1 ≠
      (envReset ⟨[], []⟩ [⟨1, 0, 1, 100, 100⟩] [1]).1 ∧
    nodeEval (envReset (envReset ⟨[], []⟩ [⟨1, 0, 1, 100, 100⟩] [1]).1
        [⟨1, 0, 2, 100, 100⟩] [1]).1 [0] ≠
      nodeEval (envReset ⟨[], []⟩ [⟨1, 0, 1, 100, 100⟩] [1]).1 [0] := by
  constructor
  · intro h
    have h2 := congrArg (fun c => c.tasksAttr) h
    simp only [envReset] at h2
    have h3 := List.head_eq_of_cons_eq h2
    have h4 := congrArg Task.slope h3
    norm_num at h4
  · intro h
    have := congrArg NodeState.l_ex h
    have h1 : (nodeEval (envReset (envReset ⟨[], []⟩ [⟨1, 0, 1, 100, 100⟩] [1]).1
        [⟨1, 0, 2, 100, 100⟩] [1]).1 [0]).l_ex = 2 := by
      norm_num [nodeEval, envReset, scheduleNode, initNode, seqExtendOne, argminIdx,
        Task.lossFn]
    have h2 : (nodeEval (envReset ⟨[], []⟩ [⟨1, 0, 1, 100, 100⟩] [1]).1 [0]).l_ex = 1 := by
      norm_num [nodeEval, envReset, scheduleNode, initNode, seqExtendOne, argminIdx,
        Task.lossFn]
    rw [h1, h2] at this
    norm_num at this

/-- C7 amended: `reset` installs the supplied tasks and
channel-availability vector into the `TreeNode` class attributes — a
single cell shared by all instances, overwritten regardless of which
instance previously set it, so nodes of other instances subsequently
observe the new data — while the supplied lists themselves are stored
unmodified (the embedding is pure: the caller's data is never mutated in
place). -/
theorem reset_class_attributes (cls cls' : TreeNodeClass) (tasks : List Task)
    (chAvail : List ℚ) (seq : List ℕ) :
    (envReset cls tasks chAvail).1 = ⟨tasks, chAvail⟩ ∧
    (envReset cls' tasks chAvail).1 = (envReset cls tasks chAvail).1 ∧
    (envReset cls tasks chAvail).2.tasks = tasks ∧
    (envReset cls tasks chAvail).2.ch_avail = chAvail ∧
    nodeEval (envReset cls tasks chAvail).1 seq = scheduleNode tasks chAvail seq :=
  ⟨rfl, rfl, rfl, rfl, rfl⟩

/-- From `scheduling_problems.py` (`Base._gen_solution`): the value the
solution-generation path returns — `SchedulingSolution(t_ex, ch_ex,
t_run)`, where `t_run` is the wall-clock time measured by
`timing_wrapper`.  There is no further field. -/
structure SchedulingSolution where
  t_ex : List ℚ
  ch_ex : List ℕ
  t_run : ℚ
deriving DecidableEq, Repr

/-- From `scheduling_problems.py` (`Base._gen_solution`): packaging a
scheduler result and the measured wall-clock time into the returned
solution. -/
def genSolution (result : NodeState) (tRun : ℚ) : SchedulingSolution :=
  ⟨result.t_ex, result.ch_ex, tRun⟩

/-- The best ordering among the candidates, judged by evaluated total
loss, starting from the identity ordering as incumbent (strict improvement
replaces the incumbent). -/
def bestSeqOver (tasks : List Task) (chAvail : List ℚ) (cands : List (List ℕ)) : List ℕ :=
  cands.foldl (fun best p =>
    if (scheduleNode tasks chAvail p).l_ex < (scheduleNode tasks chAvail best).l_ex
    then p else best) (List.range tasks.length)

/-- Modelled from the spec: branch-and-bound search (4.5,
`tree_search.py` is not among the sources) — exhaustive search over
orderings; on exhausting its queue it returns a certified-optimal
schedule, i.e. the evaluation of a loss-minimising complete ordering. -/
def branch_bound (tasks : List Task) (chAvail : List ℚ) : NodeState :=
  scheduleNode tasks chAvail
    (bestSeqOver tasks chAvail (List.range tasks.length).permutations')

/-- Modelled from the spec: a budgeted branch-and-bound run (4.5
Termination) — only the first `budget` complete orderings are evaluated;
the queue is exhausted (result certified optimal) exactly when the budget
covers every ordering. -/
def bbBudget (tasks : List Task) (chAvail : List ℚ) (budget : ℕ) : NodeState :=
  scheduleNode tasks chAvail
    (bestSeqOver tasks chAvail ((List.range tasks.length).permutations'.take budget))

/-- Modelled from the spec: whether a budgeted branch-and-bound run
exhausted its queue, i.e. the `optimal` flag of spec section 4.5/6. -/
def bbOptFlag (n budget : ℕ) : Bool :=
  (List.range n).permutations'.length ≤ budget

theorem zero_slope_l_ex_01 :
    (scheduleNode [⟨1, 0, 0, 10, 10⟩, ⟨1, 0, 0, 10, 10⟩] [0] [0, 1]).l_ex = 0 := by
  norm_num [scheduleNode, initNode, seqExtendOne, argminIdx, Task.lossFn, max_def]

theorem zero_slope_l_ex_10 :
    (scheduleNode [⟨1, 0, 0, 10, 10⟩, ⟨1, 0, 0, 10, 10⟩] [0] [1, 0]).l_ex = 0 := by
  norm_num [scheduleNode, initNode, seqExtendOne, argminIdx, Task.lossFn, max_def]

/-- No function of the returned `SchedulingSolution` value can report
whether the branch-and-bound queue was exhausted: a budget-truncated run
and an exhaustive run can return identical solutions with different
exhaustion status. -/
theorem no_optimal_flag_readable :
    ¬ ∃ read : SchedulingSolution → Bool,
      ∀ (tasks : List Task) (chAvail : List ℚ) (budget : ℕ) (tRun : ℚ),
        read (genSolution (bbBudget tasks chAvail budget) tRun) =
          bbOptFlag tasks.length budget := by
  rintro ⟨read, h⟩
  have htake1 : ((List.range 2).permutations').take 1 = [[0, 1]] := by decide
  have htake2 : ((List.range 2).permutations').take 2 = [[0, 1], [1, 0]] := by decide
  have hrange : List.range 2 = [0, 1] := rfl
  have hb1 : bestSeqOver [⟨1, 0, 0, 10, 10⟩, ⟨1, 0, 0, 10, 10⟩] [0]
      (((List.range 2).permutations').take 1) = [0, 1] := by
    unfold bestSeqOver
    rw [htake1, List.foldl_cons]
    rw [show ([⟨1, 0, 0, 10, 10⟩, ⟨1, 0, 0, 10, 10⟩] : List Task).length = 2 from rfl, hrange]
    rw [if_neg (by rw [zero_slope_l_ex_01]; exact lt_irrefl 0), List.foldl_nil]
  have hb2 : bestSeqOver [⟨1, 0, 0, 10, 10⟩, ⟨1, 0, 0, 10, 10⟩] [0]
      (((List.range 2).permutations').take 2) = [0, 1] := by
    unfold bestSeqOver
    rw [htake2, List.foldl_cons]
    rw [show ([⟨1, 0, 0, 10, 10⟩, ⟨1, 0, 0, 10, 10⟩] : List Task).length = 2 from rfl, hrange]
    rw [if_neg (by rw [zero_slope_l_ex_01]; exact lt_irrefl 0), List.foldl_cons]
    rw [if_neg (by rw [zero_slope_l_ex_10, zero_slope_l_ex_01]; exact lt_irrefl 0),
      List.foldl_nil]
  have h1 := h [⟨1, 0, 0, 10, 10⟩, ⟨1, 0, 0, 10, 10⟩] [0] 1 0
  have h2 := h [⟨1, 0, 0, 10, 10⟩, ⟨1, 0, 0, 10, 10⟩] [0] 2 0
  have hsame : bbBudget [⟨1, 0, 0, 10, 10⟩, ⟨1, 0, 0, 10, 10⟩] [0] 1 =
      bbBudget [⟨1, 0, 0, 10, 10⟩, ⟨1, 0, 0, 10, 10⟩] [0] 2 := by
    unfold bbBudget
    rw [show ([⟨1, 0, 0, 10, 10⟩, ⟨1, 0, 0, 10, 10⟩] : List Task).length = 2 from rfl]
    rw [hb1, hb2]
  rw [hsame] at h1
  rw [h1] at h2
  have hf1 : bbOptFlag ([⟨1, 0, 0, 10, 10⟩, ⟨1, 0, 0, 10, 10⟩] : List Task).length 1 =
      false := by decide
  have hf2 : bbOptFlag ([⟨1, 0, 0, 10, 10⟩, ⟨1, 0, 0, 10, 10⟩] : List Task).length 2 =
      true := by decide
  rw [hf1, hf2] at h2
  exact Bool.false_ne_true h2

/-- C6 counterexample: the values surfaced to the caller carry no optimal
flag — `main.py` line 91 destructures exactly `t_ex, ch_ex` and
`_gen_solution` returns exactly `SchedulingSolution(t_ex, ch_ex, t_run)` —
so no reading of the returned solution reports whether the queue was
exhausted: at the concrete two-task instance below, a budget-1 (truncated)
run and a budget-2 (exhaustive) run return identical solutions while
their exhaustion flags differ. -/
theorem diagnostics_no_optimal_flag_counterexample :
    ¬ ∃ read : SchedulingSolution → Bool,
      ∀ (tasks : List Task) (chAvail : List ℚ) (budget : ℕ) (tRun : ℚ),
        read (genSolution (bbBudget tasks chAvail budget) tRun) =
          bbOptFlag tasks.length budget :=
  no_optimal_flag_readable

/-- C6 amended: a scheduling call surfaces only the schedule itself —
`_gen_solution` returns exactly `t_ex`, `ch_ex` and the wall-clock
`t_run` of the run (and the plain calls in `main.py` return only `t_ex,
ch_ex`); no `optimal` flag is part of the returned value, and optimality
cannot be recovered from it. -/
theorem diagnostics_fields (result : NodeState) (tRun : ℚ) :
    (genSolution result tRun).t_ex = result.t_ex ∧
    (genSolution result tRun).ch_ex = result.ch_ex ∧
    (genSolution result tRun).t_run = tRun ∧
    ¬ ∃ read : SchedulingSolution → Bool,
      ∀ (tasks : List Task) (chAvail : List ℚ) (budget : ℕ) (tRun' : ℚ),
        read (genSolution (bbBudget tasks chAvail budget) tRun') =
          bbOptFlag tasks.length budget :=
  ⟨rfl, rfl, rfl, no_optimal_flag_readable⟩

theorem bestSeqOver_fold_spec (tasks : List Task) (chAvail : List ℚ) :
    ∀ (cands : List (List ℕ)) (cur : List ℕ),
      (cands.foldl (fun best p =>
          if (scheduleNode tasks chAvail p).l_ex < (scheduleNode tasks chAvail best).l_ex
          then p else best) cur = cur ∨
        cands.foldl (fun best p =>
          if (scheduleNode tasks chAvail p).l_ex < (scheduleNode tasks chAvail best).l_ex
          then p else best) cur ∈ cands) ∧
      (scheduleNode tasks chAvail (cands.foldl (fun best p =>
          if (scheduleNode tasks chAvail p).l_ex < (scheduleNode tasks chAvail best).l_ex
          then p else best) cur)).l_ex ≤ (scheduleNode tasks chAvail cur).l_ex ∧
      (∀ p ∈ cands, (scheduleNode tasks chAvail (cands.foldl (fun best p =>
          if (scheduleNode tasks chAvail p).l_ex < (scheduleNode tasks chAvail best).l_ex
          then p else best) cur)).l_ex ≤ (scheduleNode tasks chAvail p).l_ex) := by
  intro cands
  induction cands with
  | nil => intro cur; exact ⟨Or.inl rfl, le_refl _, fun p hp => absurd hp (by simp)⟩
  | cons q qs ih =>
    intro cur
    rw [List.foldl_cons]
    by_cases hq : (scheduleNode tasks chAvail q).l_ex < (scheduleNode tasks chAvail cur).l_ex
    · rw [if_pos hq]
      obtain ⟨hmem, hle, hall⟩ := ih q
      refine ⟨?_, le_trans hle (le_of_lt hq), ?_⟩
      · rcases hmem with h | h
        · exact Or.inr (by rw [h]; exact List.mem_cons_self _ _)
        · exact Or.inr (List.mem_cons_of_mem _ h)
      · intro p hp
        rcases List.mem_cons.mp hp with h | h
        · subst h; exact hle
        · exact hall p h
    · rw [if_neg hq]
      push_neg at hq
      obtain ⟨hmem, hle, hall⟩ := ih cur
      refine ⟨?_, hle, ?_⟩
      · rcases hmem with h | h
        · exact Or.inl h
        · exact Or.inr (List.mem_cons_of_mem _ h)
      · intro p hp
        rcases List.mem_cons.mp hp with h | h
        · subst h; exact le_trans hle hq
        · exact hall p h

theorem bestSeqOver_perm (tasks : List Task) (chAvail : List ℚ) :
    List.Perm (bestSeqOver tasks chAvail (List.range tasks.length).permutations')
      (List.range tasks.length) := by
  obtain ⟨hmem, -, -⟩ := bestSeqOver_fold_spec tasks chAvail
    (List.range tasks.length).permutations' (List.range tasks.length)
  rcases hmem with h | h
  · rw [bestSeqOver, h]
  · exact List.mem_permutations'.mp h

theorem bestSeqOver_optimal (tasks : List Task) (chAvail : List ℚ) (p : List ℕ)
    (hp : List.Perm p (List.range tasks.length)) :
    (scheduleNode tasks chAvail
        (bestSeqOver tasks chAvail (List.range tasks.length).permutations')).l_ex ≤
      (scheduleNode tasks chAvail p).l_ex := by
  obtain ⟨-, -, hall⟩ := bestSeqOver_fold_spec tasks chAvail
    (List.range tasks.length).permutations' (List.range tasks.length)
  exact hall p (List.mem_permutations'.mpr hp)

/-- From the repository's `test_argsort`: `np.argsort(sch['t'])` — the
task indices sorted ascending by the schedule's start times. -/
def argsortT (tEx : List ℚ) (n : ℕ) : List ℕ :=
  List.insertionSort (fun i j => tEx.getD i 0 ≤ tEx.getD j 0) (List.range n)

theorem argsortT_perm (tEx : List ℚ) (n : ℕ) :
    List.Perm (argsortT tEx n) (List.range n) :=
  List.perm_insertionSort _ _

theorem argsortT_sorted (tEx : List ℚ) (n : ℕ) :
    List.Sorted (fun i j => tEx.getD i 0 ≤ tEx.getD j 0) (argsortT tEx n) := by
  haveI : IsTotal ℕ (fun i j => tEx.getD i 0 ≤ tEx.getD j 0) :=
    ⟨fun a b => le_total _ _⟩
  haveI : IsTrans ℕ (fun i j => tEx.getD i 0 ≤ tEx.getD j 0) :=
    ⟨fun a b c hab hbc => le_trans hab hbc⟩
  exact List.sorted_insertionSort _ _

theorem argsortT_sorted_strict (tEx : List ℚ) (n : ℕ)
    (hties : ∀ i, i < n → ∀ j, j < n → i ≠ j → tEx.getD i 0 ≠ tEx.getD j 0) :
    List.Sorted (fun i j => tEx.getD i 0 < tEx.getD j 0) (argsortT tEx n) := by
  have hs := argsortT_sorted tEx n
  have hnd : (argsortT tEx n).Nodup := (argsortT_perm tEx n).nodup_iff.mpr (List.nodup_range n)
  have hrange : ∀ i ∈ argsortT tEx n, i < n := by
    intro i hi
    exact List.mem_range.mp ((argsortT_perm tEx n).mem_iff.mp hi)
  have hcomb := List.Pairwise.and hs hnd
  refine hcomb.imp_of_mem ?_
  intro i j hi hj ⟨hle, hne⟩
  exact lt_of_le_of_ne hle (hties i (hrange i hi) j (hrange j hj) hne)

theorem l_ex_eq_sum (tasks : List Task) (chAvail : List ℚ) :
    ∀ (seq : List ℕ) (s : NodeState), seq.Nodup → (∀ i ∈ seq, i < s.t_ex.length) →
      (seq.foldl (seqExtendOne tasks) s).l_ex =
        s.l_ex + (seq.map (fun i => (tasks.getD i default).lossFn
          ((seq.foldl (seqExtendOne tasks) s).t_ex.getD i 0))).sum := by
  intro seq
  induction seq with
  | nil => intro s _ _; simp
  | cons a rest ih =>
    intro s hnd hlt
    obtain ⟨hna, hndr⟩ := List.nodup_cons.mp hnd
    have ha : a < s.t_ex.length := hlt a (List.mem_cons_self _ _)
    rw [List.foldl_cons, List.map_cons, List.sum_cons]
    have hr := ih (seqExtendOne tasks s a) hndr (fun i hi => by
      rw [seqExtendOne_t_ex_length]
      exact hlt i (List.mem_cons_of_mem _ hi))
    rw [hr]
    have hstable : (rest.foldl (seqExtendOne tasks) (seqExtendOne tasks s a)).t_ex.getD a 0 =
        (seqExtendOne tasks s a).t_ex.getD a 0 := foldl_t_ex_stable tasks rest _ a hna
    have hta : (seqExtendOne tasks s a).t_ex.getD a 0 =
        max (s.ch_avail.getD (argminIdx s.ch_avail) 0) (tasks.getD a default).t_release :=
      getD_set_self _ ha _ _
    have hla : (seqExtendOne tasks s a).l_ex = s.l_ex + (tasks.getD a default).lossFn
        (max (s.ch_avail.getD (argminIdx s.ch_avail) 0) (tasks.getD a default).t_release) := rfl
    rw [hla, hstable, hta]
    ring

/-- Key step of the argsort round trip: when the tasks already replayed
(in ascending original start order) all started strictly earlier than task
`i` does in the original schedule `S`, the replay's minimum channel
availability cannot exceed task `i`'s original start time.  Otherwise
every channel would either have a too-late initial availability or hold a
replayed task still running (in `S`) at that moment, and counting the
distinct original channels of those tasks (which exclude `i`'s own
original channel) overflows the channel count. -/
theorem replay_min_le (tasks : List Task) (chInit : List ℚ) (S : NodeState)
    (hF2 : ∀ i, i < tasks.length → ∀ j, j < tasks.length → i ≠ j →
      S.ch_ex.getD i 0 = S.ch_ex.getD j 0 → Disj tasks S i j)
    (hF3 : ∀ i, i < tasks.length → S.ch_ex.getD i 0 < chInit.length ∧
      chInit.getD (S.ch_ex.getD i 0) 0 ≤ S.t_ex.getD i 0)
    (hdur : ∀ task ∈ tasks, 0 ≤ task.duration)
    {done : List ℕ} {r : NodeState} {i : ℕ}
    (hlen : r.ch_avail.length = chInit.length)
    (hchne : chInit ≠ [])
    (hdom : ∀ j ∈ done, r.t_ex.getD j 0 ≤ S.t_ex.getD j 0)
    (havl : ∀ m, m < chInit.length → r.ch_avail.getD m 0 = chInit.getD m 0 ∨
      ∃ j ∈ done, r.ch_ex.getD j 0 = m ∧
        r.ch_avail.getD m 0 ≤ r.t_ex.getD j 0 + (tasks.getD j default).duration)
    (hdone_lt : ∀ j ∈ done, j < tasks.length)
    (hdone_t : ∀ j ∈ done, S.t_ex.getD j 0 < S.t_ex.getD i 0)
    (hi : i < tasks.length) (hni : i ∉ done) :
    r.ch_avail.getD (argminIdx r.ch_avail) 0 ≤ S.t_ex.getD i 0 := by
  by_contra hcon
  push_neg at hcon
  have hall : ∀ m, m < chInit.length → S.t_ex.getD i 0 < r.ch_avail.getD m 0 := by
    intro m hm
    have := argminIdx_le (l := r.ch_avail) m (by rw [hlen]; exact hm)
    linarith
  have hdi : 0 ≤ (tasks.getD i default).duration := hdur _ (getD_mem hi default)
  obtain ⟨hciC, hcinit⟩ := hF3 i hi
  set B : Finset ℕ := (Finset.range chInit.length).filter
    (fun m => chInit.getD m 0 ≤ S.t_ex.getD i 0) with hB
  have hciB : S.ch_ex.getD i 0 ∈ B :=
    Finset.mem_filter.mpr ⟨Finset.mem_range.mpr hciC, hcinit⟩
  have hsel : ∀ m ∈ B, ∃ j, j ∈ done ∧ r.ch_ex.getD j 0 = m ∧
      r.ch_avail.getD m 0 ≤ r.t_ex.getD j 0 + (tasks.getD j default).duration := by
    intro m hm
    obtain ⟨hmC, hminit⟩ := Finset.mem_filter.mp hm
    rcases havl m (Finset.mem_range.mp hmC) with h | ⟨j, hj, hjm, hjv⟩
    · exfalso
      have := hall m (Finset.mem_range.mp hmC)
      rw [h] at this
      linarith
    · exact ⟨j, hj, hjm, hjv⟩
  choose! jm hjm1 hjm2 hjm3 using hsel
  have hkey : ∀ m ∈ B, jm m ∈ done ∧ jm m < tasks.length ∧
      S.t_ex.getD (jm m) 0 < S.t_ex.getD i 0 ∧
      S.t_ex.getD i 0 < S.t_ex.getD (jm m) 0 + (tasks.getD (jm m) default).duration := by
    intro m hm
    have hmC : m < chInit.length := Finset.mem_range.mp (Finset.mem_filter.mp hm).1
    have hj := hjm1 m hm
    refine ⟨hj, hdone_lt _ hj, hdone_t _ hj, ?_⟩
    have h1 := hjm3 m hm
    have h2 := hdom _ hj
    have h3 := hall m hmC
    linarith
  have hmaps : ∀ m ∈ B, S.ch_ex.getD (jm m) 0 ∈ B.erase (S.ch_ex.getD i 0) := by
    intro m hm
    obtain ⟨hjdone, hjlt, hjt, hjrun⟩ := hkey m hm
    obtain ⟨hjC, hjinit⟩ := hF3 (jm m) hjlt
    refine Finset.mem_erase.mpr ⟨?_, Finset.mem_filter.mpr
      ⟨Finset.mem_range.mpr hjC, le_trans hjinit (le_of_lt hjt)⟩⟩
    intro heq
    have hne : jm m ≠ i := fun h => hni (by rw [← h]; exact hjdone)
    have hdisj := hF2 (jm m) hjlt i hi hne heq
    unfold Disj at hdisj
    rcases hdisj with h | h
    · linarith
    · linarith
  have hinj : ∀ m ∈ B, ∀ m' ∈ B,
      S.ch_ex.getD (jm m) 0 = S.ch_ex.getD (jm m') 0 → m = m' := by
    intro m hm m' hm' heq
    by_contra hne
    have hjne : jm m ≠ jm m' := by
      intro h
      have h1 := hjm2 m hm
      have h2 := hjm2 m' hm'
      rw [h] at h1
      exact hne (h1.symm.trans h2)
    obtain ⟨-, hjlt, hjt, hjrun⟩ := hkey m hm
    obtain ⟨-, hjlt', hjt', hjrun'⟩ := hkey m' hm'
    have hdisj := hF2 (jm m) hjlt (jm m') hjlt' hjne heq
    unfold Disj at hdisj
    have hd1 : 0 ≤ (tasks.getD (jm m) default).duration := hdur _ (getD_mem hjlt default)
    have hd2 : 0 ≤ (tasks.getD (jm m') default).duration := hdur _ (getD_mem hjlt' default)
    rcases hdisj with h | h
    · linarith
    · linarith
  have hcard := Finset.card_le_card_of_injOn (fun m => S.ch_ex.getD (jm m) 0) hmaps
    (fun m hm m' hm' h => hinj m hm m' hm' h)
  have hlt := Finset.card_erase_lt_of_mem hciB
  omega

theorem replay_fold (tasks : List Task) (chInit : List ℚ) (S : NodeState)
    (hF1 : ∀ i, i < tasks.length → (tasks.getD i default).t_release ≤ S.t_ex.getD i 0)
    (hF2 : ∀ i, i < tasks.length → ∀ j, j < tasks.length → i ≠ j →
      S.ch_ex.getD i 0 = S.ch_ex.getD j 0 → Disj tasks S i j)
    (hF3 : ∀ i, i < tasks.length → S.ch_ex.getD i 0 < chInit.length ∧
      chInit.getD (S.ch_ex.getD i 0) 0 ≤ S.t_ex.getD i 0)
    (hdur : ∀ task ∈ tasks, 0 ≤ task.duration)
    (hchne : chInit ≠ []) :
    ∀ (todo done : List ℕ) (r : NodeState),
      r.ch_avail.length = chInit.length →
      r.t_ex.length = tasks.length →
      r.ch_ex.length = tasks.length →
      (∀ j ∈ done, r.t_ex.getD j 0 ≤ S.t_ex.getD j 0) →
      (∀ m, m < chInit.length → r.ch_avail.getD m 0 = chInit.getD m 0 ∨
        ∃ j ∈ done, r.ch_ex.getD j 0 = m ∧
          r.ch_avail.getD m 0 ≤ r.t_ex.getD j 0 + (tasks.getD j default).duration) →
      (∀ i ∈ todo, i < tasks.length) →
      (∀ j ∈ done, j < tasks.length) →
      (∀ j ∈ done, ∀ i ∈ todo, S.t_ex.getD j 0 < S.t_ex.getD i 0) →
      List.Sorted (fun i j => S.t_ex.getD i 0 < S.t_ex.getD j 0) todo →
      (∀ i ∈ todo, i ∉ done) →
      todo.Nodup →
      ∀ j ∈ todo ++ done,
        (todo.foldl (seqExtendOne tasks) r).t_ex.getD j 0 ≤ S.t_ex.getD j 0 := by
  intro todo
  induction todo with
  | nil =>
    intro done r _ _ _ hdom _ _ _ _ _ _ _ j hj
    exact hdom j (by simpa using hj)
  | cons i rest ih =>
    intro done r hlen hlent hlenc hdom havl htodo_lt hdone_lt hdone_t hsorted hdisjoint hnd
    have hi : i < tasks.length := htodo_lt i (List.mem_cons_self _ _)
    have hni : i ∉ done := hdisjoint i (List.mem_cons_self _ _)
    have hrne : r.ch_avail ≠ [] := by
      intro h
      apply hchne
      apply List.length_eq_zero.mp
      rw [← hlen, h]
      rfl
    have hclen : argminIdx r.ch_avail < r.ch_avail.length := argminIdx_lt_length hrne
    have hkey := replay_min_le tasks chInit S hF2 hF3 hdur hlen hchne hdom havl hdone_lt
      (fun j hj => hdone_t j hj i (List.mem_cons_self _ _)) hi hni
    set r' := seqExtendOne tasks r i with hr'
    have ht'val : r'.t_ex.getD i 0 =
        max (r.ch_avail.getD (argminIdx r.ch_avail) 0) (tasks.getD i default).t_release :=
      getD_set_self _ (by rw [hlent]; exact hi) _ _
    have ht'le : r'.t_ex.getD i 0 ≤ S.t_ex.getD i 0 := by
      rw [ht'val]
      exact max_le hkey (hF1 i hi)
    have hch'i : r'.ch_ex.getD i 0 = argminIdx r.ch_avail :=
      getD_set_self _ (by rw [hlenc]; exact hi) _ _
    have hav'min : r'.ch_avail.getD (argminIdx r.ch_avail) 0 =
        max (r.ch_avail.getD (argminIdx r.ch_avail) 0) (tasks.getD i default).t_release +
          (tasks.getD i default).duration :=
      getD_set_self _ hclen _ _
    have hsorted' := List.sorted_cons.mp hsorted
    rw [List.foldl_cons]
    have hmain := ih (i :: done) r'
      (by rw [hr', seqExtendOne_ch_avail_length]; exact hlen)
      (by rw [hr', seqExtendOne_t_ex_length]; exact hlent)
      (by rw [hr', seqExtendOne_ch_ex_length]; exact hlenc)
      (by
        intro j hj
        rcases List.mem_cons.mp hj with h | h
        · rw [h]; exact ht'le
        · have : r'.t_ex.getD j 0 = r.t_ex.getD j 0 :=
            getD_set_ne _ (fun he => hni (by rw [he]; exact h)) _ _
          rw [this]
          exact hdom j h)
      (by
        intro m hm
        by_cases hmc : m = argminIdx r.ch_avail
        · subst hmc
          refine Or.inr ⟨i, List.mem_cons_self _ _, hch'i, ?_⟩
          rw [hav'min, ht'val]
        · have hav'm : r'.ch_avail.getD m 0 = r.ch_avail.getD m 0 :=
            getD_set_ne _ (fun he => hmc he.symm) _ _
          rcases havl m hm with h | ⟨j, hj, hjm, hjv⟩
          · exact Or.inl (by rw [hav'm]; exact h)
          · refine Or.inr ⟨j, List.mem_cons_of_mem _ hj, ?_, ?_⟩
            · rw [show r'.ch_ex.getD j 0 = r.ch_ex.getD j 0 from
                getD_set_ne _ (fun he => hni (by rw [he]; exact hj)) _ _]
              exact hjm
            · rw [hav'm, show r'.t_ex.getD j 0 = r.t_ex.getD j 0 from
                getD_set_ne _ (fun he => hni (by rw [he]; exact hj)) _ _]
              exact hjv)
      (fun i' hi' => htodo_lt i' (List.mem_cons_of_mem _ hi'))
      (by
        intro j hj
        rcases List.mem_cons.mp hj with h | h
        · rw [h]; exact hi
        · exact hdone_lt j h)
      (by
        intro j hj i' hi'
        rcases List.mem_cons.mp hj with h | h
        · rw [h]; exact hsorted'.1 i' hi'
        · exact hdone_t j h i' (List.mem_cons_of_mem _ hi'))
      hsorted'.2
      (by
        intro i' hi' hmem
        rcases List.mem_cons.mp hmem with h | h
        · exact (List.nodup_cons.mp hnd).1 (by rw [← h]; exact hi')
        · exact hdisjoint i' (List.mem_cons_of_mem _ hi') h)
      (List.nodup_cons.mp hnd).2
    intro j hj
    apply hmain
    rcases List.mem_append.mp hj with h | h
    · rcases List.mem_cons.mp h with h' | h'
      · rw [h']
        exact List.mem_append.mpr (Or.inr (List.mem_cons_self _ _))
      · exact List.mem_append.mpr (Or.inl h')
    · exact List.mem_append.mpr (Or.inr (List.mem_cons_of_mem _ h))

/-- C5: for a schedule produced by branch-and-bound (modelled per spec 4.5
as the evaluation of a loss-minimising complete ordering) whose start
times have no ties, re-evaluating the ordering obtained by sorting the
task indices ascending by the schedule's start times (`argsortT`, the
embedding of `np.argsort(sch['t'])`) through the baseline evaluator
yields exactly the same total loss. -/
theorem branch_bound_argsort_roundtrip (tasks : List Task) (chAvail : List ℚ)
    (hvalid : ∀ task ∈ tasks, task.Valid) (hch : chAvail ≠ [])
    (hties : ∀ i, i < tasks.length → ∀ j, j < tasks.length → i ≠ j →
      (branch_bound tasks chAvail).t_ex.getD i 0 ≠
        (branch_bound tasks chAvail).t_ex.getD j 0) :
    (scheduleNode tasks chAvail
        (argsortT (branch_bound tasks chAvail).t_ex tasks.length)).l_ex =
      (branch_bound tasks chAvail).l_ex := by
  have hdur : ∀ task ∈ tasks, 0 ≤ task.duration := fun t ht => le_of_lt (hvalid t ht).1
  set n := tasks.length with hn
  set oseq := bestSeqOver tasks chAvail (List.range n).permutations' with hoseq_def
  have hoperm : List.Perm oseq (List.range n) := bestSeqOver_perm tasks chAvail
  set S := scheduleNode tasks chAvail oseq with hS
  have hbb : branch_bound tasks chAvail = S := rfl
  have hoseq_lt : ∀ i ∈ oseq, i < n := fun i hi => List.mem_range.mp (hoperm.mem_iff.mp hi)
  have hoseq_nd : oseq.Nodup := hoperm.nodup_iff.mpr (List.nodup_range n)
  have hinv := inv_fold hdur hch oseq [] (initNode n chAvail) (inv_init tasks chAvail)
    hoseq_lt (by simp) hoseq_nd
  rw [List.append_nil] at hinv
  have hmem_iff : ∀ i, i < n ↔ i ∈ oseq := fun i =>
    ⟨fun h => hoperm.mem_iff.mpr (List.mem_range.mpr h), fun h => hoseq_lt i h⟩
  obtain ⟨-, -, -, -, hrel, hbound, hdisj⟩ := hinv
  have hF1 : ∀ i, i < n → (tasks.getD i default).t_release ≤ S.t_ex.getD i 0 :=
    fun i h => hrel i ((hmem_iff i).mp h)
  have hF2 : ∀ i, i < n → ∀ j, j < n → i ≠ j →
      S.ch_ex.getD i 0 = S.ch_ex.getD j 0 → Disj tasks S i j :=
    fun i hi j hj => hdisj i ((hmem_iff i).mp hi) j ((hmem_iff j).mp hj)
  have hF3 : ∀ i, i < n → S.ch_ex.getD i 0 < chAvail.length ∧
      chAvail.getD (S.ch_ex.getD i 0) 0 ≤ S.t_ex.getD i 0 := by
    intro i h
    obtain ⟨h1, h2, h3⟩ := hbound i ((hmem_iff i).mp h)
    exact ⟨h1, h3⟩
  set σ := argsortT S.t_ex n with hσdef
  have hσperm : List.Perm σ (List.range n) := argsortT_perm _ _
  have hσnd : σ.Nodup := hσperm.nodup_iff.mpr (List.nodup_range n)
  have hσlt : ∀ i ∈ σ, i < n := fun i hi => List.mem_range.mp (hσperm.mem_iff.mp hi)
  have hσsorted : List.Sorted (fun i j => S.t_ex.getD i 0 < S.t_ex.getD j 0) σ :=
    argsortT_sorted_strict S.t_ex n (fun i hi j hj hij => hties i hi j hj hij)
  have hdomall := replay_fold tasks chAvail S hF1 hF2 hF3 hdur hch σ [] (initNode n chAvail)
    rfl (by simp [initNode]) (by simp [initNode]) (by simp)
    (fun m hm => Or.inl rfl) hσlt (by simp) (by simp) hσsorted (by simp) hσnd
  set R := scheduleNode tasks chAvail σ with hR
  have hdom : ∀ j ∈ σ, R.t_ex.getD j 0 ≤ S.t_ex.getD j 0 := by
    intro j hj
    exact hdomall j (by simpa using hj)
  have hlt_t_ex : ∀ i ∈ σ, i < (initNode n chAvail).t_ex.length := by
    intro i hi
    simpa [initNode] using hσlt i hi
  have hlt_t_ex' : ∀ i ∈ oseq, i < (initNode n chAvail).t_ex.length := by
    intro i hi
    simpa [initNode] using hoseq_lt i hi
  have hRsum := l_ex_eq_sum tasks chAvail σ (initNode n chAvail) hσnd hlt_t_ex
  have hSsum := l_ex_eq_sum tasks chAvail oseq (initNode n chAvail) hoseq_nd hlt_t_ex'
  have hinit0 : (initNode n chAvail).l_ex = 0 := rfl
  have hRsum' : R.l_ex = (σ.map (fun i => (tasks.getD i default).lossFn
      (R.t_ex.getD i 0))).sum := by
    rw [hR]
    show (σ.foldl (seqExtendOne tasks) (initNode n chAvail)).l_ex = _
    rw [hRsum, hinit0, zero_add]
    rfl
  have hSsum' : S.l_ex = (oseq.map (fun i => (tasks.getD i default).lossFn
      (S.t_ex.getD i 0))).sum := by
    rw [hS]
    show (oseq.foldl (seqExtendOne tasks) (initNode n chAvail)).l_ex = _
    rw [hSsum, hinit0, zero_add]
    rfl
  have hle : R.l_ex ≤ S.l_ex := by
    rw [hRsum', hSsum']
    have h1 : (σ.map (fun i => (tasks.getD i default).lossFn (R.t_ex.getD i 0))).sum ≤
        (σ.map (fun i => (tasks.getD i default).lossFn (S.t_ex.getD i 0))).sum := by
      refine List.sum_le_sum ?_
      intro i hi
      exact Task.lossFn_mono (hvalid _ (getD_mem (hσlt i hi) default)) (hdom i hi)
    have h2 : (σ.map (fun i => (tasks.getD i default).lossFn (S.t_ex.getD i 0))).sum =
        (oseq.map (fun i => (tasks.getD i default).lossFn (S.t_ex.getD i 0))).sum :=
      ((hσperm.trans hoperm.symm).map _).sum_eq
    rw [← h2]
    exact h1
  have hge : S.l_ex ≤ R.l_ex := bestSeqOver_optimal tasks chAvail σ hσperm
  rw [hbb]
  show R.l_ex = S.l_ex
  exact le_antisymm hle hge

/-- Witness for C5 at a concrete one-task instance (start times are
trivially tie-free). -/
theorem branch_bound_argsort_roundtrip_witness :
    (scheduleNode [⟨2, 1, 1, 10, 10⟩] [0]
        (argsortT (branch_bound [⟨2, 1, 1, 10, 10⟩] [0]).t_ex
          ([⟨2, 1, 1, 10, 10⟩] : List Task).length)).l_ex =
      (branch_bound [⟨2, 1, 1, 10, 10⟩] [0]).l_ex :=
  branch_bound_argsort_roundtrip [⟨2, 1, 1, 10, 10⟩] [0]
    (by norm_num [Task.Valid]) (by decide)
    (by
      intro i hi j hj hij
      simp only [List.length_singleton] at hi hj
      omega)

end TaskScheduling
